import Mathlib

/-!
# Verification of the JPEG decoder's entropy-decoding and reconstruction core

This file gives a shallow embedding of the decoder's core
(`src/jpeg_decoder/reader.py`, `src/jpeg_decoder/marker.py`,
`src/jpeg_decoder/decoder.py`) and proves or refutes the specified
properties of the bit reader, the Huffman table builder, the entropy
decoder, the block pipeline and the MCU/image assembly.

Conventions of the embedding:

* Python byte streams become `List Nat` (each element `< 256`); a short
  read (`EOFError`) and a failed Huffman match (`ValueError`) become the
  two constructors of `RdErr`, and fallible functions return
  `Except RdErr`.
* The decoder stores DC predictors and coefficients in Python floats,
  but every value written there is integer-valued (magnitudes decoded
  from bits, sums and differences thereof), and such float arithmetic is
  exact in the ranges reachable here; those fields are embedded as
  `Int`.
* The real-valued stages of `decoder.py` (dequantization and the IDCT,
  which use `math.sqrt`, `math.cos`) are embedded over `ℝ`.
* The `print` of a stuffing warning in `BitStream.get_bit` is
  observable state and is embedded as a counter `stuffWarnings`.
-/

namespace JpegDecoder

/-- Errors surfaced by the reader: `eof` is Python's
`EOFError("Unexpected End of Stream")`, `huffman` is the
`ValueError("Huffman decoding failed")` of `match_huffman`. -/
inductive RdErr where
  | eof
  | huffman
deriving Repr, DecidableEq

/-- State of `reader.BitStream`: the remaining bytes of the underlying
file, the byte being consumed bit by bit, how many of its bits are still
unread, the per-component DC predictors `last_dc`, and a counter of the
stuffing warnings printed so far. -/
structure BitStream where
  data : List Nat
  currentByte : Nat
  bitCount : Nat
  lastDc : List Int
  stuffWarnings : Nat
deriving Repr, DecidableEq

/-- `BitStream.__init__`: fresh reader over `data` with
`current_byte = 0`, `bit_count = 0`, `last_dc = [0.0, 0.0, 0.0]`. -/
def BitStream.init (data : List Nat) : BitStream :=
  { data := data, currentByte := 0, bitCount := 0
    lastDc := [0, 0, 0], stuffWarnings := 0 }

/-- `BitStream.get_bit`.  When `bit_count = 0` a fresh byte is fetched;
if that byte is `0xFF` the very next byte is also consumed
(byte stuffing), and a warning is recorded when it is non-zero (the
Python code merely prints and continues).  The returned bit is the
highest unread bit of `current_byte`. -/
def get_bit (bs : BitStream) : Except RdErr (Nat × BitStream) :=
  match bs.bitCount with
  | 0 =>
    match bs.data with
    | [] => .error .eof
    | b :: rest =>
      if b = 255 then
        match rest with
        | [] =>
            .ok ((b >>> 7) &&& 1,
              { bs with data := [], currentByte := b, bitCount := 7 })
        | c :: rest2 =>
            let warn := if c ≠ 0 then bs.stuffWarnings + 1 else bs.stuffWarnings
            .ok ((b >>> 7) &&& 1,
              { bs with data := rest2, currentByte := b, bitCount := 7,
                        stuffWarnings := warn })
      else
        .ok ((b >>> 7) &&& 1,
          { bs with data := rest, currentByte := b, bitCount := 7 })
  | n + 1 =>
      .ok ((bs.currentByte >>> n) &&& 1, { bs with bitCount := n })

/-- A Huffman table: the Python `dict` keyed by `(length, code)` becomes
an association list (the builder never repeats a key). -/
abbrev HTable := List ((Nat × Nat) × Nat)

/-- Lookup in the association list, mirroring `(length, code) in table`
followed by `table[(length, code)]`. -/
def tableLookup : HTable → Nat × Nat → Option Nat
  | [], _ => none
  | (k, v) :: rest, q => if k = q then some v else tableLookup rest q

/-- The body of `BitStream.match_huffman`'s `while length < 16` loop,
structurally recursive on the remaining number of lengths to try. -/
def match_huffman_go (table : HTable) :
    Nat → Nat → Nat → BitStream → Except RdErr (Nat × BitStream)
  | 0, _, _, _ => .error .huffman
  | fuel + 1, length, code, bs =>
    match get_bit bs with
    | .error e => .error e
    | .ok (bit, bs1) =>
      let code' := (code <<< 1) ||| bit
      match tableLookup table (length + 1, code') with
      | some sym => .ok (sym, bs1)
      | none => match_huffman_go table fuel (length + 1) code' bs1

/-- `BitStream.match_huffman`: read bits, extending the candidate code,
until a `(length, code)` key of the table matches; at most 16 bits. -/
def match_huffman (table : HTable) (bs : BitStream) :
    Except RdErr (Nat × BitStream) :=
  match_huffman_go table 16 0 0 bs

/-- The `for _ in range(length - 1)` accumulation loop of
`BitStream.read_value`: `current_val = (current_val << 1) | get_bit()`. -/
def read_value_loop : Nat → Nat → BitStream → Except RdErr (Nat × BitStream)
  | 0, acc, bs => .ok (acc, bs)
  | n + 1, acc, bs =>
    match get_bit bs with
    | .error e => .error e
    | .ok (bit, bs1) => read_value_loop n ((acc <<< 1) ||| bit) bs1

/-- `BitStream.read_value`: read `length` magnitude bits MSB-first; if
the first bit is `1` the value is the magnitude itself, otherwise it is
`magnitude - (2^length - 1)`; `length = 0` yields `0`. -/
def read_value (length : Nat) (bs : BitStream) :
    Except RdErr (Int × BitStream) :=
  if length = 0 then .ok (0, bs)
  else
    match get_bit bs with
    | .error e => .error e
    | .ok (firstBit, bs1) =>
      match read_value_loop (length - 1) firstBit bs1 with
      | .error e => .error e
      | .ok (cur, bs2) =>
        if firstBit = 1 then .ok ((cur : Int), bs2)
        else .ok ((cur : Int) - (((1 <<< length) - 1 : Nat) : Int), bs2)

/-- `BitStream.read_dc`: decode the bit length from the DC table, read
the difference, accumulate it into `last_dc[component_id]` and return
the accumulated value. -/
def read_dc (table : HTable) (componentId : Nat) (bs : BitStream) :
    Except RdErr (Int × BitStream) :=
  match match_huffman table bs with
  | .error e => .error e
  | .ok (length, bs1) =>
    match (if length = 0 then .ok ((0 : Int), bs1) else read_value length bs1) with
    | .error e => .error e
    | .ok (diff, bs2) =>
      let newDc := bs2.lastDc.getD componentId 0 + diff
      .ok (newDc, { bs2 with lastDc := bs2.lastDc.set componentId newDc })

/-- `BitStream.read_ac`: decode one AC symbol; `0x00` is EOB encoded as
run `-1`, `0xF0` is ZRL encoded as run `16`, any other symbol splits
into a run (upper nibble) and a coefficient of `category` (lower
nibble) bits. -/
def read_ac (table : HTable) (bs : BitStream) :
    Except RdErr ((Int × Int) × BitStream) :=
  match match_huffman table bs with
  | .error e => .error e
  | .ok (s, bs1) =>
    if s = 0x00 then .ok (((-1 : Int), (0 : Int)), bs1)
    else if s = 0xF0 then .ok (((16 : Int), (0 : Int)), bs1)
    else
      let numZeros := s >>> 4
      let category := s &&& 0x0F
      match read_value category bs1 with
      | .error e => .error e
      | .ok (val, bs2) => .ok (((numZeros : Int), val), bs2)

/-- A `Block` is the Python 8×8 list of lists; linear position `idx`
lives at row `idx / 8`, column `idx % 8`. -/
abbrev Block := List (List Int)

/-- `[[0.0] * 8 for _ in range(8)]`. -/
def initBlock : Block := List.replicate 8 (List.replicate 8 0)

/-- `block[idx // 8][idx % 8] = v`. -/
def blockSet (b : Block) (idx : Nat) (v : Int) : Block :=
  b.set (idx / 8) ((b.getD (idx / 8) []).set (idx % 8) v)

/-- `block[idx // 8][idx % 8]`. -/
def blockGet (b : Block) (idx : Nat) : Int :=
  (b.getD (idx / 8) []).getD (idx % 8) 0

/-- The `while idx < 64` AC loop of `read_mcu`.  Each iteration strictly
increases `idx`, so 63 units of fuel (the caller's choice) can never be
exhausted before the loop exits; `read_ac` only ever produces runs `≥ -1`,
and `-1` exits before the addition, so `Int.toNat` is exact. -/
def ac_loop (table : HTable) :
    Nat → Nat → Block → BitStream → Except RdErr (Block × BitStream)
  | 0, _, b, bs => .ok (b, bs)
  | fuel + 1, idx, b, bs =>
    if 64 ≤ idx then .ok (b, bs)
    else
      match read_ac table bs with
      | .error e => .error e
      | .ok ((zeros, val), bs1) =>
        if zeros = -1 then .ok (b, bs1)
        else
          let idx' := idx + zeros.toNat
          if 64 ≤ idx' then .ok (b, bs1)
          else ac_loop table fuel (idx' + 1) (blockSet b idx' val) bs1

/-- The per-block body of `read_mcu`: initialize an all-zero 8×8 block,
store the DC value at `[0][0]`, then run the AC loop from `idx = 1`. -/
def read_block (dcTable acTable : HTable) (componentId : Nat)
    (bs : BitStream) : Except RdErr (Block × BitStream) :=
  match read_dc dcTable componentId bs with
  | .error e => .error e
  | .ok (dcv, bs1) => ac_loop acTable 63 1 (blockSet initBlock 0 dcv) bs1

/-- A sequence of coefficient stores `block[idx // 8][idx % 8] = v`, as
performed by the AC loop. -/
def applyWrites (b : Block) (ws : List (Nat × Int)) : Block :=
  ws.foldl (fun acc w => blockSet acc w.1 w.2) b

/-- The bit-length/difference part of `read_dc`: everything it does
before accumulating into `last_dc` (it never touches `last_dc`). -/
def read_dc_diff (table : HTable) (bs : BitStream) :
    Except RdErr (Int × BitStream) :=
  match match_huffman table bs with
  | .error e => .error e
  | .ok (length, bs1) =>
    if length = 0 then .ok ((0 : Int), bs1) else read_value length bs1

/-- `read_dc` instrumented to also report the difference it read; its
projection to the first value and the stream is exactly `read_dc`. -/
def read_dc_trace (table : HTable) (componentId : Nat) (bs : BitStream) :
    Except RdErr ((Int × Int) × BitStream) :=
  match read_dc_diff table bs with
  | .error e => .error e
  | .ok (d, bs1) =>
    let v := bs1.lastDc.getD componentId 0 + d
    .ok ((v, d), { bs1 with lastDc := bs1.lastDc.set componentId v })

/-- The DC decode of the successive blocks of one component: each block
of the component performs one `read_dc`; the pairs are
`(returned DC value, difference read)`. -/
def read_dc_trace_seq (table : HTable) (componentId : Nat) :
    Nat → BitStream → Except RdErr (List (Int × Int) × BitStream)
  | 0, bs => .ok ([], bs)
  | n + 1, bs =>
    match read_dc_trace table componentId bs with
    | .error e => .error e
    | .ok (p, bs1) =>
      match read_dc_trace_seq table componentId n bs1 with
      | .error e => .error e
      | .ok (ps, bs2) => .ok (p :: ps, bs2)

/-- `primitives.ComponentInfo` (defaults all `0`). -/
structure ComponentInfo where
  horizontalSampling : Nat := 0
  verticalSampling : Nat := 0
  quantizationTableId : Nat := 0
deriving Repr, DecidableEq

/-- The default `ComponentInfo()`, as held by an undeclared component. -/
def defaultComponent : ComponentInfo := {}

/-- `primitives.SofInfo`: frame geometry and the three component
records (a component never mentioned by SOF0 keeps the defaults). -/
structure SofInfo where
  precision : Nat := 0
  height : Nat := 0
  width : Nat := 0
  components : List ComponentInfo := [{}, {}, {}]
  maxHorizontalSampling : Nat := 0
  maxVerticalSampling : Nat := 0
deriving Repr, DecidableEq

/-- `primitives.HuffmanTable`: two DC and two AC tables. -/
structure HuffmanTables where
  dcTables : List HTable := [[], []]
  acTables : List HTable := [[], []]
deriving Repr, DecidableEq

/-- `primitives.JPEGMetadata` (the `app_info` fields play no role in
the decoding core and are omitted; quantization values are integers
parsed by `read_u8`/`read_u16`). -/
structure JPEGMetadata where
  sofInfo : SofInfo := {}
  huffmanTables : HuffmanTables := {}
  quantizationTables : List (List Int) :=
    List.replicate 4 (List.replicate 64 0)
  tableMapping : List (Nat × Nat) := [(0, 0), (0, 0), (0, 0)]
deriving Repr, DecidableEq

/-- An `MCU`: three components, each a 2-D list of blocks. -/
abbrev MCU := List (List (List Block))

/-- The `for h in range(h_samp)` loop of `read_mcu`: one row of blocks. -/
def read_blocks_row (dcTable acTable : HTable) (componentId : Nat) :
    Nat → BitStream → Except RdErr (List Block × BitStream)
  | 0, bs => .ok ([], bs)
  | h + 1, bs =>
    match read_block dcTable acTable componentId bs with
    | .error e => .error e
    | .ok (blk, bs1) =>
      match read_blocks_row dcTable acTable componentId h bs1 with
      | .error e => .error e
      | .ok (row, bs2) => .ok (blk :: row, bs2)

/-- The `for v in range(v_samp)` loop of `read_mcu`: the grid of blocks
of one component. -/
def read_component_blocks (dcTable acTable : HTable) (componentId hSamp : Nat) :
    Nat → BitStream → Except RdErr (List (List Block) × BitStream)
  | 0, bs => .ok ([], bs)
  | v + 1, bs =>
    match read_blocks_row dcTable acTable componentId hSamp bs with
    | .error e => .error e
    | .ok (row, bs1) =>
      match read_component_blocks dcTable acTable componentId hSamp v bs1 with
      | .error e => .error e
      | .ok (rows, bs2) => .ok (row :: rows, bs2)

/-- The `for i in range(3)` loop of `read_mcu`, entered at component
index `i` with `n` components still to read. -/
def read_components (meta : JPEGMetadata) :
    Nat → Nat → BitStream → Except RdErr (MCU × BitStream)
  | 0, _, bs => .ok ([], bs)
  | n + 1, i, bs =>
    let comp := meta.sofInfo.components.getD i defaultComponent
    let ids := meta.tableMapping.getD i (0, 0)
    let dcTable := meta.huffmanTables.dcTables.getD ids.1 []
    let acTable := meta.huffmanTables.acTables.getD ids.2 []
    match read_component_blocks dcTable acTable i comp.horizontalSampling
        comp.verticalSampling bs with
    | .error e => .error e
    | .ok (compData, bs1) =>
      match read_components meta n (i + 1) bs1 with
      | .error e => .error e
      | .ok (rest, bs2) => .ok (compData :: rest, bs2)

/-- `reader.read_mcu`: always three components, Y, Cb, Cr. -/
def read_mcu (meta : JPEGMetadata) (bs : BitStream) :
    Except RdErr (MCU × BitStream) :=
  read_components meta 3 0 bs

/-- The component-sample lookup
`self.mcu[id][vh // 8][vw // 8][vh % 8][vw % 8]` performed by
`MCUWrap.toRGB`; a Python `IndexError` becomes `none`. -/
def mcuSample (mcu : MCU) (id vh vw : Nat) : Option Int := do
  let comp ← mcu.get? id
  let row ← comp.get? (vh / 8)
  let blk ← row.get? (vw / 8)
  let brow ← blk.get? (vh % 8)
  brow.get? (vw % 8)

/-! ## The DHT table builder (`marker.parse_dht`) -/

/-- The inner `for _ in range(num_codes)` loop of `parse_dht`: assign
the next symbols consecutive codes at the given bit length. -/
def assignSymbols (bitLength : Nat) : Nat → List Nat → HTable
  | _, [] => []
  | code, s :: rest => ((bitLength, code), s) :: assignSymbols bitLength (code + 1) rest

/-- The outer `for bit_length in range(16)` loop of `parse_dht`,
carrying the running code: after consuming a length's symbols the code
has advanced by their count and is shifted left by one. -/
def buildHuffmanTable (bitLength : Nat) :
    Nat → List Nat → List Nat → HTable
  | _, [], _ => []
  | code, n :: counts, syms =>
    assignSymbols (bitLength + 1) code (syms.take n) ++
      buildHuffmanTable (bitLength + 1) ((code + n) <<< 1) counts (syms.drop n)

/-- The table `parse_dht` stores for one `(counts, symbols)` wire form:
sixteen counts `L1..L16` and the symbols in code order. -/
def parse_dht_table (counts symbols : List Nat) : HTable :=
  buildHuffmanTable 0 0 counts symbols

/-- The code value at which length `l` starts (`l ≥ 1`), following the
builder's recurrence: length 1 starts at 0, and length `l+1` starts at
`(start of l + L_l) << 1`. -/
def firstCodeAux : Nat → List Nat → Nat → Nat
  | code, _, 0 => code
  | code, [], _ + 1 => code
  | code, n :: counts, l + 1 => firstCodeAux ((code + n) <<< 1) counts l

/-- First code of length `l` (1-based). -/
def firstCode (counts : List Nat) (l : Nat) : Nat :=
  firstCodeAux 0 counts (l - 1)

/-- Modelled from the spec's words ("start code = 0, length = 1; for
length ℓ the next `L_ℓ` codes are consecutive integers; after consuming
length ℓ the code is shifted left by one and the length increments",
with the symbols taken in code order): the canonical table, for
comparison with what `parse_dht` builds.  The `k`-th code of length
`l + 1` is `firstCode (l + 1) + k` — consecutive integers — and its
symbol is the `(L_1 + ⋯ + L_l + k)`-th symbol of the wire form. -/
def canonicalTable (counts syms : List Nat) : HTable :=
  (List.range counts.length).flatMap fun l =>
    (List.range (counts.getD l 0)).map fun k =>
      ((l + 1, firstCode counts (l + 1) + k),
        syms.getD ((counts.take l).sum + k) 0)

/-! ## Orchestrator geometry (`decoder.decoder`) -/

/-- `int((width - 1) / mcu_width + 1)`: for `width ≥ 1` the Python
float expression equals floor division, embedded over `Nat`. -/
def mcuWidthNumber (width mcuWidth : Nat) : Nat := (width - 1) / mcuWidth + 1

/-- `int((height - 1) / mcu_height + 1)`. -/
def mcuHeightNumber (height mcuHeight : Nat) : Nat := (height - 1) / mcuHeight + 1

/-- `image_width = mcu_width_number * mcu_width`. -/
def imageWidth (width mcuWidth : Nat) : Nat := mcuWidthNumber width mcuWidth * mcuWidth

/-- `image_height = mcu_height_number * mcu_height`. -/
def imageHeight (height mcuHeight : Nat) : Nat := mcuHeightNumber height mcuHeight * mcuHeight

/-- The pixel written for tile position `(y, x)` of MCU grid cell
`(h, w)`: `img.pixels[h * mcu_height + y][w * mcu_width + x]`. -/
def pixelIndex (mcuHeight mcuWidth h w y x : Nat) : Nat × Nat :=
  (h * mcuHeight + y, w * mcuWidth + x)

/-! ## Block pipeline (`decoder.py`) -/

/-- The zig-zag lookup table `ZZ` of `decoder.py`. -/
def ZZ : List (List Nat) :=
  [[ 0,  1,  5,  6, 14, 15, 27, 28],
   [ 2,  4,  7, 13, 16, 26, 29, 42],
   [ 3,  8, 12, 17, 25, 30, 41, 43],
   [ 9, 11, 18, 24, 31, 40, 44, 53],
   [10, 19, 23, 32, 39, 45, 52, 54],
   [20, 22, 33, 38, 46, 51, 55, 60],
   [21, 34, 37, 47, 50, 56, 59, 61],
   [35, 36, 48, 49, 57, 58, 62, 63]]

/-- `ZZ[r][c]`. -/
def zzAt (r c : Nat) : Nat := (ZZ.getD r []).getD c 0

theorem zzAt_lt : ∀ r c : Fin 8, zzAt r.val c.val < 64 := by decide

/-- `MCUWrap.inverse_zigzag_scan` on one block:
`tmp[r][c] = raw_block[ZZ[r][c] // 8][ZZ[r][c] % 8]`.  Every entry of
`tmp` is overwritten, so the `0.0` initialisation never survives and
the block may carry any coefficient type. -/
def inverse_zigzag_scan {α : Type} (raw : Fin 8 → Fin 8 → α) :
    Fin 8 → Fin 8 → α :=
  fun r c =>
    raw ⟨zzAt r.val c.val / 8, by have := zzAt_lt r c; omega⟩
        ⟨zzAt r.val c.val % 8, Nat.mod_lt _ (by omega)⟩

/-- Linear position of the zig-zag cell holding spatial value `k`:
the inverse table of `ZZ`, written out so that
`zzAt (zzInv k / 8) (zzInv k % 8) = k` (checked by `decide` below). -/
def ZZINV : List Nat :=
  [ 0,  1,  8, 16,  9,  2,  3, 10,
   17, 24, 32, 25, 18, 11,  4,  5,
   12, 19, 26, 33, 40, 48, 41, 34,
   27, 20, 13,  6,  7, 14, 21, 28,
   35, 42, 49, 56, 57, 50, 43, 36,
   29, 22, 15, 23, 30, 37, 44, 51,
   58, 59, 52, 45, 38, 31, 39, 46,
   53, 60, 61, 54, 47, 55, 62, 63]

/-- `ZZINV[8*r + c]`. -/
def zzInvAt (r c : Nat) : Nat := ZZINV.getD (8 * r + c) 0

theorem zzInvAt_lt : ∀ r c : Fin 8, zzInvAt r.val c.val < 64 := by decide

/-- The forward zig-zag scan (the table inverse of
`inverse_zigzag_scan`), placing spatial value `(r, c)` back at its
zig-zag linear position. -/
def zigzag_scan {α : Type} (b : Fin 8 → Fin 8 → α) : Fin 8 → Fin 8 → α :=
  fun r c =>
    b ⟨zzInvAt r.val c.val / 8, by have := zzInvAt_lt r c; omega⟩
      ⟨zzInvAt r.val c.val % 8, Nat.mod_lt _ (by omega)⟩

/-- `MCUWrap.dequantize` on one block: multiply position `(r, c)` by
`quant_table[r * 8 + c]` (both sides in zig-zag linear order). -/
def dequantize (quantTable : List ℝ) (b : Fin 8 → Fin 8 → ℝ) :
    Fin 8 → Fin 8 → ℝ :=
  fun r c => b r c * quantTable.getD (r.val * 8 + c.val) 0

/-- `IDCT_1D.solve` for `N = 8`:
`f(x) = sqrt(2/8) * Σ_u α(u) F(u) cos((2x+1) u π / 16)` with
`α(0) = 1/√2`, `α(u>0) = 1`. -/
noncomputable def idct_1d (F : Fin 8 → ℝ) (x : Fin 8) : ℝ :=
  Real.sqrt (2 / 8) *
    ∑ u : Fin 8,
      (if u.val = 0 then (1 / Real.sqrt 2) * F u *
          Real.cos ((2 * x.val + 1) * u.val * Real.pi / (2 * 8))
       else F u * Real.cos ((2 * x.val + 1) * u.val * Real.pi / (2 * 8)))

/-- `IDCT_2D_RowColumn.solve`: a 1-D pass over every row, then a 1-D
pass over every column of the intermediate matrix. -/
noncomputable def idct_2d (F : Fin 8 → Fin 8 → ℝ) : Fin 8 → Fin 8 → ℝ :=
  fun x c => idct_1d (fun k => idct_1d (F k) c) x

/-- `decoder.chomp`: `int(max(0, min(255, round(val))))`. -/
noncomputable def chomp (val : ℝ) : ℤ := max 0 (min 255 (round val))

/-- Modelled from the spec's words "round(clamp(...))": clamp to
`0..255` first, then round to the nearest integer. -/
noncomputable def specRoundClamp (val : ℝ) : ℤ := round (max 0 (min 255 val))

/-- The coefficient block of an all-DC image in zig-zag linear order:
the DC value at linear position 0 (row 0, column 0), zeros elsewhere
(EOB immediately after DC). -/
def dcOnlyBlock (d : ℝ) : Fin 8 → Fin 8 → ℝ :=
  fun r c => if r.val = 0 ∧ c.val = 0 then d else 0

/-- The per-block reconstruction chain of `MCUWrap.decode` in its
exact order: dequantize, then inverse zig-zag, then 2-D IDCT. -/
noncomputable def block_pipeline (quantTable : List ℝ)
    (b : Fin 8 → Fin 8 → ℝ) : Fin 8 → Fin 8 → ℝ :=
  idct_2d (inverse_zigzag_scan (dequantize quantTable b))

/-! ## C1: Zero-Run-Length handling -/

/-- C1: the code violates the claim.  With DC table `{(1,0) ↦ 0}`, AC
table `{(1,0) ↦ 0xF0, (2,2) ↦ 0x01, (2,3) ↦ 0x00}` and entropy byte
`0x2E` (bits: DC difference of length 0; ZRL; symbol `0x01` with value
bit `1`; EOB), the coefficient following the ZRL symbol is stored at
linear position 18 = 1 + 17, not at position 17 = 1 + 16: after the
`idx += 16` step the loop also stores a zero and advances once more, so
a ZRL advances the linear position by 17, not 16 as the claim states. -/
theorem c1_zrl_off_by_one :
    read_block [((1, 0), 0)] [((1, 0), 0xF0), ((2, 2), 0x01), ((2, 3), 0x00)] 0
        (BitStream.init [0x2E]) =
      .ok ([[0, 0, 0, 0, 0, 0, 0, 0],
            [0, 0, 0, 0, 0, 0, 0, 0],
            [0, 0, 1, 0, 0, 0, 0, 0],
            [0, 0, 0, 0, 0, 0, 0, 0],
            [0, 0, 0, 0, 0, 0, 0, 0],
            [0, 0, 0, 0, 0, 0, 0, 0],
            [0, 0, 0, 0, 0, 0, 0, 0],
            [0, 0, 0, 0, 0, 0, 0, 0]],
        { data := [], currentByte := 0x2E, bitCount := 1,
          lastDc := [0, 0, 0], stuffWarnings := 0 }) ∧
    blockGet [[0, 0, 0, 0, 0, 0, 0, 0],
              [0, 0, 0, 0, 0, 0, 0, 0],
              [0, 0, 1, 0, 0, 0, 0, 0],
              [0, 0, 0, 0, 0, 0, 0, 0],
              [0, 0, 0, 0, 0, 0, 0, 0],
              [0, 0, 0, 0, 0, 0, 0, 0],
              [0, 0, 0, 0, 0, 0, 0, 0],
              [0, 0, 0, 0, 0, 0, 0, 0]] 17 = 0 ∧
    blockGet [[0, 0, 0, 0, 0, 0, 0, 0],
              [0, 0, 0, 0, 0, 0, 0, 0],
              [0, 0, 1, 0, 0, 0, 0, 0],
              [0, 0, 0, 0, 0, 0, 0, 0],
              [0, 0, 0, 0, 0, 0, 0, 0],
              [0, 0, 0, 0, 0, 0, 0, 0],
              [0, 0, 0, 0, 0, 0, 0, 0],
              [0, 0, 0, 0, 0, 0, 0, 0]] 18 = 1 := by
  refine ⟨rfl, rfl, rfl⟩

/-! ## C2: run-length overflow -/

/-- C2 counterexample: with AC table `{(1,0) ↦ 0xF1}` (run 15, one
value bit) and entropy bytes `0x2A 0x80`, the fourth AC symbol pushes
the position from 49 to 64 > 63, yet `read_block` returns a block
(`Except.ok`) instead of reporting any error: no `InvalidRunLength`
error exists in the code, the loop merely breaks. -/
theorem c2_overflow_returns_block :
    read_block [((1, 0), 0)] [((1, 0), 0xF1)] 0 (BitStream.init [0x2A, 0x80]) =
      .ok ([[0, 0, 0, 0, 0, 0, 0, 0],
            [0, 0, 0, 0, 0, 0, 0, 0],
            [1, 0, 0, 0, 0, 0, 0, 0],
            [0, 0, 0, 0, 0, 0, 0, 0],
            [1, 0, 0, 0, 0, 0, 0, 0],
            [0, 0, 0, 0, 0, 0, 0, 0],
            [1, 0, 0, 0, 0, 0, 0, 0],
            [0, 0, 0, 0, 0, 0, 0, 0]],
        { data := [], currentByte := 0x80, bitCount := 7,
          lastDc := [0, 0, 0], stuffWarnings := 0 }) := by
  rfl

/-- C2 (amended): whenever an AC symbol's run length pushes the linear
position to 64 or beyond, the AC loop stops immediately and returns the
block built so far without any error (the pending coefficient value is
discarded); only bit-reader and Huffman errors are ever reported. -/
theorem c2_overflow_breaks (table : HTable) (fuel idx : Nat) (b : Block)
    (bs bs1 : BitStream) (zeros val : Int)
    (hread : read_ac table bs = .ok ((zeros, val), bs1))
    (hz : 0 ≤ zeros) (hidx : idx < 64) (hover : 64 ≤ idx + zeros.toNat) :
    ac_loop table (fuel + 1) idx b bs = .ok (b, bs1) := by
  have hne : ¬ zeros = -1 := by omega
  simp only [ac_loop, hread, hne, if_false, if_neg (by omega : ¬ 64 ≤ idx),
    if_pos hover]

/-- C2 witness: a concrete instance of `c2_overflow_breaks` — at
position 50, a run of 15 overruns the block and the loop returns the
untouched block. -/
theorem c2_overflow_breaks_witness :
    ac_loop [((1, 0), 0xF1)] 5 50 initBlock (BitStream.init [0x60]) =
      .ok (initBlock,
        { data := [], currentByte := 0x60, bitCount := 6,
          lastDc := [0, 0, 0], stuffWarnings := 0 }) :=
  c2_overflow_breaks [((1, 0), 0xF1)] 4 50 initBlock (BitStream.init [0x60])
    _ 15 1 rfl (by decide) (by decide) (by decide)

/-! ## C3: byte stuffing -/

/-- C3 counterexample: inside the entropy stream, byte `0xFF` followed
by the non-zero byte `0xD9` does not make `get_bit` fail — it returns
the MSB of `0xFF` successfully and merely records a printed warning
(`stuffWarnings` becomes 1); the follower byte is consumed. -/
theorem c3_no_corrupt_stuffing_error :
    get_bit (BitStream.init [0xFF, 0xD9]) =
      .ok (1, { data := [], currentByte := 0xFF, bitCount := 7,
                lastDc := [0, 0, 0], stuffWarnings := 1 }) := by
  rfl

/-- C3 (amended): when a fresh byte `0xFF` is followed by a non-zero
byte, `get_bit` succeeds (no `CorruptStuffing` error exists): it prints
a warning, consumes the follower, and delivers the bits of `0xFF`
MSB-first; when the follower is `0x00` it is discarded silently and the
eight bits of `0xFF` (all ones, value 255 MSB-first) are delivered. -/
theorem c3_stuffing_behavior (cur : Nat) (c : Nat) (rest : List Nat)
    (dc : List Int) (w : Nat) (hc : c ≠ 0) :
    get_bit ⟨255 :: c :: rest, cur, 0, dc, w⟩ =
        .ok (1, ⟨rest, 255, 7, dc, w + 1⟩) ∧
    get_bit ⟨255 :: 0 :: rest, cur, 0, dc, w⟩ =
        .ok (1, ⟨rest, 255, 7, dc, w⟩) ∧
    read_value_loop 8 0 ⟨255 :: 0 :: rest, cur, 0, dc, w⟩ =
        .ok (255, ⟨rest, 255, 0, dc, w⟩) := by
  refine ⟨?_, ?_, ?_⟩
  · simp [get_bit, hc]
  · simp [get_bit]
  · simp [read_value_loop, get_bit]

/-- C3 witness: `c3_stuffing_behavior` at the concrete follower `0xD9`. -/
theorem c3_stuffing_behavior_witness :
    get_bit ⟨[255, 0xD9], 0, 0, [0, 0, 0], 0⟩ =
        .ok (1, ⟨[], 255, 7, [0, 0, 0], 1⟩) ∧
    get_bit ⟨[255, 0], 0, 0, [0, 0, 0], 0⟩ =
        .ok (1, ⟨[], 255, 7, [0, 0, 0], 0⟩) ∧
    read_value_loop 8 0 ⟨[255, 0], 0, 0, [0, 0, 0], 0⟩ =
        .ok (255, ⟨[], 255, 0, [0, 0, 0], 0⟩) :=
  c3_stuffing_behavior 0 0xD9 [] [0, 0, 0] 0 (by decide)

/-! ## C4: the zig-zag permutation -/

/-- C4 counterexample: applying `inverse_zigzag_scan` twice is not the
identity.  For the block holding 1 at spatial position `(1, 7)` (linear
15) and 0 elsewhere, position `(0, 2)` after two applications holds 1,
whereas the original block holds 0 there. -/
theorem c4_not_involution :
    inverse_zigzag_scan (inverse_zigzag_scan
        (fun r c : Fin 8 => if r = 1 ∧ c = 7 then (1 : ℤ) else 0)) 0 2 = 1 ∧
    (fun r c : Fin 8 => if r = 1 ∧ c = 7 then (1 : ℤ) else 0) 0 2 = 0 := by
  decide

/-- C4 (amended): the inverse zig-zag reordering is a permutation of
the 64 coefficient positions — composing it in either order with the
forward zig-zag scan (its table inverse) is the identity on blocks —
but composing it with itself is not the identity. -/
theorem c4_zigzag_permutation {α : Type} (b : Fin 8 → Fin 8 → α) :
    zigzag_scan (inverse_zigzag_scan b) = b ∧
    inverse_zigzag_scan (zigzag_scan b) = b := by
  have h1 : ∀ r c : Fin 8,
      zzAt (zzInvAt r.val c.val / 8) (zzInvAt r.val c.val % 8) / 8 = r.val ∧
      zzAt (zzInvAt r.val c.val / 8) (zzInvAt r.val c.val % 8) % 8 = c.val := by
    decide
  have h2 : ∀ r c : Fin 8,
      zzInvAt (zzAt r.val c.val / 8) (zzAt r.val c.val % 8) / 8 = r.val ∧
      zzInvAt (zzAt r.val c.val / 8) (zzAt r.val c.val % 8) % 8 = c.val := by
    decide
  constructor
  · funext r c
    show b _ _ = b r c
    congr 1
    · exact Fin.ext (h1 r c).1
    · exact Fin.ext (h1 r c).2
  · funext r c
    show b _ _ = b r c
    congr 1
    · exact Fin.ext (h2 r c).1
    · exact Fin.ext (h2 r c).2

/-! ## C8: padded image geometry -/

/-- C8: with `mcu_w = 8·max_h` and `mcu_h = 8·max_v`, the output image
is allocated at the padded dimensions `ceil(width/mcu_w)·mcu_w` by
`ceil(height/mcu_h)·mcu_h`; the RGB tile of MCU grid cell `(h, w)` is
written with its top-left pixel at image offset `(h·mcu_h, w·mcu_w)`,
and every in-tile pixel write lands inside the padded image. -/
theorem c8_padded_geometry (width height maxH maxV : Nat)
    (hw : 1 ≤ width) (hh : 1 ≤ height) (hmh : 1 ≤ maxH) (hmv : 1 ≤ maxV) :
    imageWidth width (8 * maxH) =
        ((width + 8 * maxH - 1) / (8 * maxH)) * (8 * maxH) ∧
    imageHeight height (8 * maxV) =
        ((height + 8 * maxV - 1) / (8 * maxV)) * (8 * maxV) ∧
    (∀ h w y x : Nat,
      pixelIndex (8 * maxV) (8 * maxH) h w y x = (h * (8 * maxV) + y, w * (8 * maxH) + x)) ∧
    (∀ h w y x : Nat, h < mcuHeightNumber height (8 * maxV) →
      w < mcuWidthNumber width (8 * maxH) → y < 8 * maxV → x < 8 * maxH →
      (pixelIndex (8 * maxV) (8 * maxH) h w y x).1 < imageHeight height (8 * maxV) ∧
      (pixelIndex (8 * maxV) (8 * maxH) h w y x).2 < imageWidth width (8 * maxH)) := by
  have ceil_eq : ∀ s m : Nat, 1 ≤ s → 1 ≤ m → (s - 1) / m + 1 = (s + m - 1) / m := by
    intro s m hs hm
    have h1 : s + m - 1 = (s - 1) + m := by omega
    rw [h1, Nat.add_div_right _ (by omega)]
  have inb : ∀ a n m b : Nat, a < n → b < m → a * m + b < n * m := by
    intro a n m b ha hb
    calc a * m + b < a * m + m := by omega
    _ = (a + 1) * m := by ring
    _ ≤ n * m := Nat.mul_le_mul_right m ha
  refine ⟨?_, ?_, fun h w y x => rfl, fun h w y x hh' hw' hy hx => ⟨?_, ?_⟩⟩
  · unfold imageWidth mcuWidthNumber
    rw [ceil_eq width (8 * maxH) hw (by omega)]
  · unfold imageHeight mcuHeightNumber
    rw [ceil_eq height (8 * maxV) hh (by omega)]
  · exact inb h (mcuHeightNumber height (8 * maxV)) (8 * maxV) y hh' hy
  · exact inb w (mcuWidthNumber width (8 * maxH)) (8 * maxH) x hw' hx

/-- C8 witness: the geometry theorem at the non-aligned 7×7 frame with
1×1 sampling — an 8×8 padded buffer, and the single MCU's writes are in
bounds. -/
theorem c8_padded_geometry_witness :
    imageWidth 7 (8 * 1) = ((7 + 8 * 1 - 1) / (8 * 1)) * (8 * 1) ∧
    imageHeight 7 (8 * 1) = ((7 + 8 * 1 - 1) / (8 * 1)) * (8 * 1) ∧
    (∀ h w y x : Nat,
      pixelIndex (8 * 1) (8 * 1) h w y x = (h * (8 * 1) + y, w * (8 * 1) + x)) ∧
    (∀ h w y x : Nat, h < mcuHeightNumber 7 (8 * 1) →
      w < mcuWidthNumber 7 (8 * 1) → y < 8 * 1 → x < 8 * 1 →
      (pixelIndex (8 * 1) (8 * 1) h w y x).1 < imageHeight 7 (8 * 1) ∧
      (pixelIndex (8 * 1) (8 * 1) h w y x).2 < imageWidth 7 (8 * 1)) :=
  c8_padded_geometry 7 7 1 1 (by decide) (by decide) (by decide) (by decide)

/-! ## C6: the canonical Huffman code assignment of `parse_dht` -/

theorem getD_take_lt (l : List Nat) (n k : Nat) (h : k < n) :
    (l.take n).getD k 0 = l.getD k 0 := by
  simp [List.getD_eq_getElem?_getD, List.getElem?_take, h]

theorem getD_drop_add (l : List Nat) (n k : Nat) :
    (l.drop n).getD k 0 = l.getD (n + k) 0 := by
  simp [List.getD_eq_getElem?_getD, List.getElem?_drop]

theorem assignSymbols_eq (syms : List Nat) (bl : Nat) : ∀ code,
    assignSymbols bl code syms =
      (List.range syms.length).map fun k => ((bl, code + k), syms.getD k 0) := by
  induction syms with
  | nil => intro code; rfl
  | cons s rest ih =>
    intro code
    rw [assignSymbols, ih (code + 1), List.length_cons, List.range_succ_eq_map,
      List.map_cons, List.map_map]
    refine congrArg₂ List.cons (by simp) (List.map_congr_left fun k _ => ?_)
    have hadd : code + 1 + k = code + (k + 1) := by omega
    simp [Function.comp_def, hadd]

theorem buildHuffmanTable_eq (counts : List Nat) : ∀ (syms : List Nat) (bl code : Nat),
    counts.sum ≤ syms.length →
    buildHuffmanTable bl code counts syms =
      (List.range counts.length).flatMap fun l =>
        (List.range (counts.getD l 0)).map fun k =>
          ((bl + l + 1, firstCodeAux code counts l + k),
            syms.getD ((counts.take l).sum + k) 0) := by
  induction counts with
  | nil => intro syms bl code _; rfl
  | cons n rest ih =>
    intro syms bl code h
    have hsum : n + rest.sum ≤ syms.length := by simpa [List.sum_cons] using h
    have hn : n ≤ syms.length := by omega
    rw [buildHuffmanTable, assignSymbols_eq,
      ih (syms.drop n) (bl + 1) ((code + n) <<< 1)
        (by rw [List.length_drop]; omega),
      List.length_cons, List.range_succ_eq_map, List.flatMap_cons, List.flatMap_map]
    refine congrArg₂ List.append ?_ ?_
    · rw [List.length_take, min_eq_left hn]
      refine List.map_congr_left fun k hk => ?_
      rw [List.mem_range] at hk
      rw [getD_take_lt syms n k hk]
      simp [firstCodeAux]
    · refine congrArg _ (funext fun l => ?_)
      refine List.map_congr_left fun k _ => ?_
      simp only [List.getD_cons_succ, List.take_succ_cons, List.sum_cons,
        getD_drop_add, Prod.mk.injEq]
      refine ⟨⟨by omega, ?_⟩, by rw [Nat.add_assoc]⟩
      rfl

/-- The running-code recurrence: within the table of counts, length
`l + 2` starts at `(start of l + 1 + L_(l+1)) <<< 1`. -/
theorem firstCodeAux_succ (counts : List Nat) : ∀ (code l : Nat), l < counts.length →
    firstCodeAux code counts (l + 1) =
      (firstCodeAux code counts l + counts.getD l 0) <<< 1 := by
  induction counts with
  | nil => intro code l h; simp at h
  | cons n rest ih =>
    intro code l h
    match l with
    | 0 => simp [firstCodeAux]
    | l + 1 =>
      have : l < rest.length := by simpa using h
      show firstCodeAux ((code + n) <<< 1) rest (l + 1) = _
      rw [ih ((code + n) <<< 1) l this]
      rfl

/-- C6: `parse_dht` assigns codes canonically.  Its table equals the
canonical table: the `k`-th code of length `l` is `firstCode l + k`
(consecutive integers within one length) paired with the symbols in
wire order; the first code starts at 0 at length 1; after consuming
length `l` the running code is shifted left by one, so whenever length
`l` is non-empty the first code of length `l + 1` equals
`(last code of length l + 1) << 1`. -/
theorem c6_canonical_assignment (counts symbols : List Nat)
    (hlen : counts.sum ≤ symbols.length) :
    parse_dht_table counts symbols = canonicalTable counts symbols ∧
    firstCode counts 1 = 0 ∧
    (∀ l, 1 ≤ l → l - 1 < counts.length →
      firstCode counts (l + 1) =
        (firstCode counts l + counts.getD (l - 1) 0) <<< 1) ∧
    (∀ l, 1 ≤ l → l - 1 < counts.length → 0 < counts.getD (l - 1) 0 →
      firstCode counts (l + 1) =
        ((firstCode counts l + (counts.getD (l - 1) 0 - 1)) + 1) <<< 1) := by
  have hrec : ∀ l, 1 ≤ l → l - 1 < counts.length →
      firstCode counts (l + 1) =
        (firstCode counts l + counts.getD (l - 1) 0) <<< 1 := by
    intro l h1 hl
    unfold firstCode
    have : l + 1 - 1 = (l - 1) + 1 := by omega
    rw [this, firstCodeAux_succ counts 0 (l - 1) hl]
  have hzero : firstCode counts 1 = 0 := by
    unfold firstCode firstCodeAux
    cases counts <;> rfl
  refine ⟨?_, hzero, hrec, fun l h1 hl hpos => ?_⟩
  · unfold parse_dht_table canonicalTable firstCode
    rw [buildHuffmanTable_eq counts symbols 0 0 hlen]
    refine congrArg _ (funext fun l => ?_)
    refine List.map_congr_left fun k _ => ?_
    simp [Nat.add_sub_cancel]
  · rw [hrec l h1 hl]
    congr 1
    omega

/-- C6 witness: the canonical assignment at the concrete wire form
with one code of length 1 and two codes of length 2. -/
theorem c6_canonical_assignment_witness :
    parse_dht_table [1, 2] [5, 6, 7] = canonicalTable [1, 2] [5, 6, 7] ∧
    firstCode [1, 2] 1 = 0 ∧
    (∀ l, 1 ≤ l → l - 1 < ([1, 2] : List Nat).length →
      firstCode [1, 2] (l + 1) =
        (firstCode [1, 2] l + ([1, 2] : List Nat).getD (l - 1) 0) <<< 1) ∧
    (∀ l, 1 ≤ l → l - 1 < ([1, 2] : List Nat).length →
      0 < ([1, 2] : List Nat).getD (l - 1) 0 →
      firstCode [1, 2] (l + 1) =
        ((firstCode [1, 2] l + (([1, 2] : List Nat).getD (l - 1) 0 - 1)) + 1) <<< 1) :=
  c6_canonical_assignment [1, 2] [5, 6, 7] (by decide)

/-! ## C7: the sign-extension rule of `read_value` -/

theorem bit_and_one_le (x k : Nat) : (x >>> k) &&& 1 ≤ 1 := by
  rw [Nat.and_one_is_mod]
  omega

/-- Every bit produced by `get_bit` is 0 or 1. -/
theorem get_bit_le {bs : BitStream} {bit : Nat} {bs' : BitStream}
    (h : get_bit bs = .ok (bit, bs')) : bit ≤ 1 := by
  unfold get_bit at h
  repeat' split at h
  all_goals simp at h
  all_goals obtain ⟨h1, -⟩ := h
  all_goals omega

theorem shiftLeft_or_bit (a b : Nat) (hb : b ≤ 1) :
    (a <<< 1) ||| b = 2 * a + b := by
  rw [Nat.shiftLeft_eq, pow_one]
  interval_cases b
  · simp [Nat.mul_comm]
  · apply Nat.eq_of_testBit_eq
    intro i
    cases i with
    | zero =>
      rw [Nat.testBit_or]
      simp only [Nat.testBit_zero]
      have h3 : a * 2 % 2 = 0 := Nat.mul_mod_left a 2
      have h4 : (2 * a + 1) % 2 = 1 := by omega
      simp [h3, h4]
    | succ i =>
      have h1 : a * 2 / 2 = a := by omega
      have h2 : (2 * a + 1) / 2 = a := by omega
      rw [Nat.testBit_or, Nat.testBit_succ, Nat.testBit_succ, Nat.testBit_succ,
        h1, h2]
      simp

/-- The accumulation loop keeps the value between `acc·2^n` and
`(acc+1)·2^n`: the bits read extend `acc` at the low end. -/
theorem read_value_loop_bounds :
    ∀ (n acc : Nat) (bs : BitStream) (M : Nat) (bs' : BitStream),
    read_value_loop n acc bs = .ok (M, bs') →
    acc * 2 ^ n ≤ M ∧ M < (acc + 1) * 2 ^ n := by
  intro n
  induction n with
  | zero =>
    intro acc bs M bs' h
    simp only [read_value_loop, Except.ok.injEq, Prod.mk.injEq] at h
    obtain ⟨h1, -⟩ := h
    subst h1
    simp
  | succ n ih =>
    intro acc bs M bs' h
    cases hgb : get_bit bs with
    | error e => simp [read_value_loop, hgb] at h
    | ok p =>
      obtain ⟨bit, bs1⟩ := p
      simp only [read_value_loop, hgb] at h
      have hble := get_bit_le hgb
      have heq := shiftLeft_or_bit acc bit hble
      rw [heq] at h
      obtain ⟨hl, hu⟩ := ih (2 * acc + bit) bs1 M bs' h
      constructor
      · calc acc * 2 ^ (n + 1) = (2 * acc) * 2 ^ n := by ring
          _ ≤ (2 * acc + bit) * 2 ^ n := Nat.mul_le_mul_right _ (by omega)
          _ ≤ M := hl
      · calc M < (2 * acc + bit + 1) * 2 ^ n := hu
          _ ≤ ((acc + 1) * 2) * 2 ^ n := Nat.mul_le_mul_right _ (by omega)
          _ = (acc + 1) * 2 ^ (n + 1) := by ring

/-- C7: the sign-extension rule.  For a bit length `S ≥ 1`, if the
first magnitude bit read is `b1` and the loop accumulates the `S`-bit
magnitude `M` MSB-first, then `M < 2^S`, and `read_value` returns `M`
itself when `M ≥ 2^(S-1)` (first bit 1) and `-(2^S - 1) + M` when
`M < 2^(S-1)` (first bit 0); a length of 0 decodes to 0. -/
theorem c7_sign_extension (S : Nat) (bs bs1 bs2 : BitStream) (b1 M : Nat)
    (hS : 1 ≤ S) (hb : get_bit bs = .ok (b1, bs1))
    (hloop : read_value_loop (S - 1) b1 bs1 = .ok (M, bs2)) :
    M < 2 ^ S ∧
    (2 ^ (S - 1) ≤ M → read_value S bs = .ok ((M : ℤ), bs2)) ∧
    (M < 2 ^ (S - 1) → read_value S bs = .ok (-(2 ^ S - 1) + (M : ℤ), bs2)) ∧
    read_value 0 bs = .ok (0, bs) := by
  have hble := get_bit_le hb
  obtain ⟨hl, hu⟩ := read_value_loop_bounds (S - 1) b1 bs1 M bs2 hloop
  have hpow : (2 : Nat) ^ S = 2 ^ (S - 1) * 2 := by
    rw [← pow_succ]
    congr 1
    omega
  have hub : M < 2 * 2 ^ (S - 1) :=
    lt_of_lt_of_le hu (by
      calc (b1 + 1) * 2 ^ (S - 1) ≤ 2 * 2 ^ (S - 1) :=
        Nat.mul_le_mul_right _ (by omega)
      _ = 2 * 2 ^ (S - 1) := rfl)
  refine ⟨by omega, ?_, ?_, by simp [read_value]⟩
  · intro hge
    have hb1 : b1 = 1 := by
      by_contra hne
      have hz : b1 = 0 := by omega
      subst hz
      omega
    subst hb1
    unfold read_value
    rw [if_neg (by omega : ¬ S = 0), hb]
    simp [hloop]
  · intro hlt
    have hb1 : b1 = 0 := by
      by_contra hne
      have ho : b1 = 1 := by omega
      subst ho
      omega
    subst hb1
    unfold read_value
    rw [if_neg (by omega : ¬ S = 0), hb]
    have hcast : (((1 <<< S) - 1 : Nat) : Int) = (2 : Int) ^ S - 1 := by
      rw [Nat.shiftLeft_eq, one_mul]
      push_cast [Nat.one_le_two_pow]
      ring
    simp [hloop, hcast]
    ring

/-- C7 witness: `read_value 2` on the byte `0x40` (bits `01`): the
magnitude `M = 1` has first bit 0, so the value is `-(2^2 - 1) + 1 = -2`. -/
theorem c7_sign_extension_witness :
    read_value 2 (BitStream.init [0x40]) =
      .ok (-(2 ^ 2 - 1) + (1 : ℤ),
        { data := [], currentByte := 0x40, bitCount := 6,
          lastDc := [0, 0, 0], stuffWarnings := 0 }) :=
  (c7_sign_extension 2 (BitStream.init [0x40])
      { data := [], currentByte := 0x40, bitCount := 7,
        lastDc := [0, 0, 0], stuffWarnings := 0 }
      { data := [], currentByte := 0x40, bitCount := 6,
        lastDc := [0, 0, 0], stuffWarnings := 0 }
      0 1 (by decide) rfl rfl).2.2.1 (by decide)

/-! ## C5: the per-component DC predictor -/

theorem getD_set_self {α : Type} (l : List α) (i : Nat) (v d : α)
    (h : i < l.length) : (l.set i v).getD i d = v := by
  simp [List.getD_eq_getElem?_getD, List.getElem?_set_self, h]

theorem getD_set_ne {α : Type} (l : List α) (i j : Nat) (v d : α)
    (h : i ≠ j) : (l.set i v).getD j d = l.getD j d := by
  simp [List.getD_eq_getElem?_getD, List.getElem?_set_ne h]

theorem getD_set_oob {α : Type} (l : List α) (i : Nat) (v d : α)
    (h : ¬ i < l.length) : (l.set i v).getD i d = l.getD i d := by
  simp [List.getD_eq_getElem?_getD, List.getElem?_set, h,
    List.getElem?_eq_none (by omega : l.length ≤ i)]

/-- `get_bit` never touches the DC predictors. -/
theorem get_bit_lastDc {bs : BitStream} {bit : Nat} {bs' : BitStream}
    (h : get_bit bs = .ok (bit, bs')) : bs'.lastDc = bs.lastDc := by
  unfold get_bit at h
  repeat' split at h
  all_goals simp at h
  all_goals obtain ⟨-, h2⟩ := h
  all_goals rw [← h2]

theorem match_huffman_go_lastDc (table : HTable) :
    ∀ (fuel length code : Nat) (bs : BitStream) (s : Nat) (bs' : BitStream),
    match_huffman_go table fuel length code bs = .ok (s, bs') →
    bs'.lastDc = bs.lastDc := by
  intro fuel
  induction fuel with
  | zero => intro l c bs s bs' h; simp [match_huffman_go] at h
  | succ fuel ih =>
    intro l c bs s bs' h
    cases hgb : get_bit bs with
    | error e => simp [match_huffman_go, hgb] at h
    | ok p =>
      obtain ⟨bit, bs1⟩ := p
      simp only [match_huffman_go, hgb] at h
      have hb1 := get_bit_lastDc hgb
      cases htl : tableLookup table (l + 1, (c <<< 1) ||| bit) with
      | some sym =>
        simp only [htl, Except.ok.injEq, Prod.mk.injEq] at h
        obtain ⟨-, h2⟩ := h
        rw [← h2, hb1]
      | none =>
        simp only [htl] at h
        rw [ih (l + 1) ((c <<< 1) ||| bit) bs1 s bs' h, hb1]

theorem match_huffman_lastDc {table : HTable} {bs : BitStream} {s : Nat}
    {bs' : BitStream} (h : match_huffman table bs = .ok (s, bs')) :
    bs'.lastDc = bs.lastDc :=
  match_huffman_go_lastDc table 16 0 0 bs s bs' h

theorem read_value_loop_lastDc :
    ∀ (n acc : Nat) (bs : BitStream) (M : Nat) (bs' : BitStream),
    read_value_loop n acc bs = .ok (M, bs') → bs'.lastDc = bs.lastDc := by
  intro n
  induction n with
  | zero =>
    intro acc bs M bs' h
    simp only [read_value_loop, Except.ok.injEq, Prod.mk.injEq] at h
    rw [← h.2]
  | succ n ih =>
    intro acc bs M bs' h
    cases hgb : get_bit bs with
    | error e => simp [read_value_loop, hgb] at h
    | ok p =>
      obtain ⟨bit, bs1⟩ := p
      simp only [read_value_loop, hgb] at h
      rw [ih _ bs1 M bs' h, get_bit_lastDc hgb]

theorem read_value_lastDc {length : Nat} {bs : BitStream} {v : Int}
    {bs' : BitStream} (h : read_value length bs = .ok (v, bs')) :
    bs'.lastDc = bs.lastDc := by
  unfold read_value at h
  by_cases h0 : length = 0
  · rw [if_pos h0] at h
    simp only [Except.ok.injEq, Prod.mk.injEq] at h
    rw [← h.2]
  · rw [if_neg h0] at h
    cases hgb : get_bit bs with
    | error e => simp [hgb] at h
    | ok p =>
      obtain ⟨bit, bs1⟩ := p
      simp only [hgb] at h
      cases hlp : read_value_loop (length - 1) bit bs1 with
      | error e => simp [hlp] at h
      | ok q =>
        obtain ⟨cur, bs2⟩ := q
        simp only [hlp] at h
        have h2 : bs2.lastDc = bs.lastDc := by
          rw [read_value_loop_lastDc _ _ bs1 cur bs2 hlp, get_bit_lastDc hgb]
        split at h <;>
          (simp only [Except.ok.injEq, Prod.mk.injEq] at h; rw [← h.2, h2])

/-- Reading a DC difference does not touch the predictors. -/
theorem read_dc_diff_lastDc {table : HTable} {bs : BitStream} {d : Int}
    {bs' : BitStream} (h : read_dc_diff table bs = .ok (d, bs')) :
    bs'.lastDc = bs.lastDc := by
  unfold read_dc_diff at h
  cases hmh : match_huffman table bs with
  | error e => simp [hmh] at h
  | ok p =>
    obtain ⟨length, bs1⟩ := p
    simp only [hmh] at h
    have h1 := match_huffman_lastDc hmh
    split at h
    · simp only [Except.ok.injEq, Prod.mk.injEq] at h
      rw [← h.2, h1]
    · rw [read_value_lastDc h, h1]

/-- AC symbol decoding never touches the predictors. -/
theorem read_ac_lastDc {table : HTable} {bs : BitStream} {p : Int × Int}
    {bs' : BitStream} (h : read_ac table bs = .ok (p, bs')) :
    bs'.lastDc = bs.lastDc := by
  unfold read_ac at h
  cases hmh : match_huffman table bs with
  | error e => simp [hmh] at h
  | ok q =>
    obtain ⟨s, bs1⟩ := q
    simp only [hmh] at h
    have h1 := match_huffman_lastDc hmh
    split at h
    · simp only [Except.ok.injEq, Prod.mk.injEq] at h
      rw [← h.2, h1]
    · split at h
      · simp only [Except.ok.injEq, Prod.mk.injEq] at h
        rw [← h.2, h1]
      · cases hrv : read_value (s &&& 0x0F) bs1 with
        | error e => simp [hrv] at h
        | ok q2 =>
          obtain ⟨val, bs2⟩ := q2
          simp only [hrv, Except.ok.injEq, Prod.mk.injEq] at h
          rw [← h.2, read_value_lastDc hrv, h1]

/-- The AC loop never touches the predictors. -/
theorem ac_loop_lastDc (table : HTable) :
    ∀ (fuel idx : Nat) (b : Block) (bs : BitStream) (b' : Block)
    (bs' : BitStream), ac_loop table fuel idx b bs = .ok (b', bs') →
    bs'.lastDc = bs.lastDc := by
  intro fuel
  induction fuel with
  | zero =>
    intro idx b bs b' bs' h
    simp only [ac_loop, Except.ok.injEq, Prod.mk.injEq] at h
    rw [← h.2]
  | succ fuel ih =>
    intro idx b bs b' bs' h
    rw [ac_loop] at h
    split at h
    · simp only [Except.ok.injEq, Prod.mk.injEq] at h
      rw [← h.2]
    · cases hra : read_ac table bs with
      | error e => simp [hra] at h
      | ok q =>
        obtain ⟨⟨zeros, val⟩, bs1⟩ := q
        simp only [hra] at h
        have h1 := read_ac_lastDc hra
        split at h
        · simp only [Except.ok.injEq, Prod.mk.injEq] at h
          rw [← h.2, h1]
        · split at h
          · simp only [Except.ok.injEq, Prod.mk.injEq] at h
            rw [← h.2, h1]
          · rw [ih _ _ bs1 b' bs' h, h1]

/-- Setting a different linear position leaves a coefficient unchanged. -/
theorem blockGet_set_ne (b : Block) (idx : Nat) (v : Int) (j : Nat)
    (h : j ≠ idx) : blockGet (blockSet b idx v) j = blockGet b j := by
  unfold blockGet blockSet
  rcases eq_or_ne (j / 8) (idx / 8) with hr | hr
  · have hc : idx % 8 ≠ j % 8 := by omega
    rw [hr]
    by_cases hlen : idx / 8 < b.length
    · rw [getD_set_self b (idx / 8) _ [] hlen, getD_set_ne _ _ _ _ _ hc]
    · rw [getD_set_oob b (idx / 8) _ [] hlen]
  · rw [getD_set_ne b (idx / 8) (j / 8) _ [] (Ne.symm hr)]

/-- The AC loop never writes linear position 0. -/
theorem ac_loop_get0 (table : HTable) :
    ∀ (fuel idx : Nat) (b : Block) (bs : BitStream) (b' : Block)
    (bs' : BitStream), 1 ≤ idx →
    ac_loop table fuel idx b bs = .ok (b', bs') →
    blockGet b' 0 = blockGet b 0 := by
  intro fuel
  induction fuel with
  | zero =>
    intro idx b bs b' bs' hidx h
    simp only [ac_loop, Except.ok.injEq, Prod.mk.injEq] at h
    rw [← h.1]
  | succ fuel ih =>
    intro idx b bs b' bs' hidx h
    rw [ac_loop] at h
    split at h
    · simp only [Except.ok.injEq, Prod.mk.injEq] at h
      rw [← h.1]
    · cases hra : read_ac table bs with
      | error e => simp [hra] at h
      | ok q =>
        obtain ⟨⟨zeros, val⟩, bs1⟩ := q
        simp only [hra] at h
        split at h
        · simp only [Except.ok.injEq, Prod.mk.injEq] at h
          rw [← h.1]
        · split at h
          · simp only [Except.ok.injEq, Prod.mk.injEq] at h
            rw [← h.1]
          · rw [ih _ _ bs1 b' bs' (by omega) h,
              blockGet_set_ne b (idx + zeros.toNat) val 0 (by omega)]

/-- `read_dc` is `read_dc_trace` with the difference projected away. -/
theorem read_dc_eq_trace (table : HTable) (i : Nat) (bs : BitStream) :
    read_dc table i bs =
      Except.map (fun p => (p.1.1, p.2)) (read_dc_trace table i bs) := by
  unfold read_dc read_dc_trace read_dc_diff
  cases hmh : match_huffman table bs with
  | error e => rfl
  | ok p =>
    obtain ⟨length, bs1⟩ := p
    cases hv : (if length = 0 then .ok ((0 : Int), bs1)
        else read_value length bs1) with
    | error e => simp [hv, Except.map]
    | ok q => simp [hv, Except.map]

/-- What one `read_dc_trace` step does to the predictor: the returned
value is the old predictor plus the difference read, and the predictor
of component `i` is updated to that value. -/
theorem read_dc_trace_spec {table : HTable} {i : Nat} {bs : BitStream}
    {v d : Int} {bs1 : BitStream}
    (h : read_dc_trace table i bs = .ok ((v, d), bs1)) :
    v = bs.lastDc.getD i 0 + d ∧ bs1.lastDc = bs.lastDc.set i v := by
  unfold read_dc_trace at h
  cases hd : read_dc_diff table bs with
  | error e => simp [hd] at h
  | ok p =>
    obtain ⟨d0, bsd⟩ := p
    have hld := read_dc_diff_lastDc hd
    simp only [hd, Except.ok.injEq, Prod.mk.injEq] at h
    obtain ⟨⟨hv, hd0⟩, hbs⟩ := h
    subst hd0
    have hv' : bs.lastDc.getD i 0 + d0 = v := by rw [← hld]; exact hv
    constructor
    · exact hv'.symm
    · rw [← hbs]
      show bsd.lastDc.set i (bsd.lastDc.getD i 0 + d0) = bs.lastDc.set i v
      rw [hld, hv']

/-- Along the DC stream of one component, the value decoded at block
`k` is the starting predictor plus the prefix sum of the differences,
and the final predictor is the starting one plus the total sum. -/
theorem read_dc_trace_seq_sum (table : HTable) (i : Nat) :
    ∀ (n : Nat) (bs : BitStream) (ps : List (Int × Int)) (bs' : BitStream),
    i < bs.lastDc.length →
    read_dc_trace_seq table i n bs = .ok (ps, bs') →
    (∀ k, k < n → (ps.getD k (0, 0)).1 =
        bs.lastDc.getD i 0 + ((ps.map Prod.snd).take (k + 1)).sum) ∧
    bs'.lastDc.getD i 0 = bs.lastDc.getD i 0 + (ps.map Prod.snd).sum ∧
    ps.length = n := by
  intro n
  induction n with
  | zero =>
    intro bs ps bs' hi h
    simp only [read_dc_trace_seq, Except.ok.injEq, Prod.mk.injEq] at h
    obtain ⟨h1, h2⟩ := h
    subst h1; subst h2
    simp
  | succ n ih =>
    intro bs ps bs' hi h
    cases htr : read_dc_trace table i bs with
    | error e => simp [read_dc_trace_seq, htr] at h
    | ok p1 =>
      obtain ⟨⟨v, d⟩, bs1⟩ := p1
      simp only [read_dc_trace_seq, htr] at h
      cases hsq : read_dc_trace_seq table i n bs1 with
      | error e => simp [hsq] at h
      | ok p2 =>
        obtain ⟨ps', bs2⟩ := p2
        simp only [hsq, Except.ok.injEq, Prod.mk.injEq] at h
        obtain ⟨hps, hbs2⟩ := h
        obtain ⟨hv, hbs1⟩ := read_dc_trace_spec htr
        have hlen1 : bs1.lastDc.length = bs.lastDc.length := by
          rw [hbs1, List.length_set]
        have hdc1 : bs1.lastDc.getD i 0 = v := by
          rw [hbs1]; exact getD_set_self _ _ _ _ (by omega)
        obtain ⟨ihk, ihfin, ihlen⟩ := ih bs1 ps' bs2 (by omega) hsq
        subst hps
        subst hbs2
        refine ⟨?_, ?_, by simp [ihlen]⟩
        · intro k hk
          match k with
          | 0 => simp [hv]
          | k + 1 =>
            have hk' : k < n := by omega
            have := ihk k hk'
            rw [hdc1] at this
            simp only [List.getD_cons_succ, List.map_cons, List.take_succ_cons,
              List.sum_cons]
            rw [this, hv]
            ring
        · rw [ihfin, hdc1, hv]
          simp only [List.map_cons, List.sum_cons]
          ring

/-- What one `read_dc` does to the predictors. -/
theorem read_dc_spec {table : HTable} {i : Nat} {bs : BitStream} {v : Int}
    {bs' : BitStream} (h : read_dc table i bs = .ok (v, bs')) :
    (∃ d, v = bs.lastDc.getD i 0 + d) ∧ bs'.lastDc = bs.lastDc.set i v := by
  rw [read_dc_eq_trace] at h
  cases htr : read_dc_trace table i bs with
  | error e => rw [htr] at h; cases h
  | ok p =>
    obtain ⟨⟨v0, d0⟩, bs1⟩ := p
    rw [htr] at h
    simp only [Except.map, Except.ok.injEq, Prod.mk.injEq] at h
    obtain ⟨hv0, hbs1⟩ := h
    obtain ⟨hval, hld⟩ := read_dc_trace_spec htr
    subst hv0
    exact ⟨⟨d0, hval⟩, by rw [← hbs1, hld]⟩

/-- C5: the running DC predictor.  At the start of the scan every
predictor is zero (`BitStream.init`); along the DC stream of component
`i`, the DC value decoded for block `k` equals the sum of the
differences of blocks `0..k`, and after `n` blocks the predictor holds
the total sum (it is never reset — in particular AC decoding leaves all
predictors untouched, and decoding a block of component `i` leaves
every other component's predictor unchanged, so predictors persist
across blocks and MCU boundaries); the decoded block's coefficient at
linear position 0 is exactly the current predictor value. -/
theorem c5_dc_predictor (table dcT acT : HTable) (i n : Nat)
    (data : List Nat) (ps : List (Int × Int)) (bs' : BitStream)
    (bsb : BitStream) (b : Block) (bsb' : BitStream)
    (hseq : read_dc_trace_seq table i n (BitStream.init data) = .ok (ps, bs'))
    (hi : i < 3)
    (hblk : read_block dcT acT i bsb = .ok (b, bsb'))
    (hib : i < bsb.lastDc.length) :
    (BitStream.init data).lastDc.getD i 0 = 0 ∧
    (∀ k, k < n →
      (ps.getD k (0, 0)).1 = ((ps.map Prod.snd).take (k + 1)).sum) ∧
    bs'.lastDc.getD i 0 = (ps.map Prod.snd).sum ∧
    (∀ (bsx : BitStream) (px : Int × Int) (bsx' : BitStream),
      read_ac acT bsx = .ok (px, bsx') → bsx'.lastDc = bsx.lastDc) ∧
    blockGet b 0 = bsb'.lastDc.getD i 0 ∧
    (∀ j, j ≠ i → bsb'.lastDc.getD j 0 = bsb.lastDc.getD j 0) := by
  have hzero : (BitStream.init data).lastDc.getD i 0 = 0 := by
    show ([0, 0, 0] : List Int).getD i 0 = 0
    rcases i with - | - | - | i <;> rfl
  have hilen : i < (BitStream.init data).lastDc.length := by
    show i < ([0, 0, 0] : List Int).length
    simp
    omega
  obtain ⟨hk, hfin, -⟩ :=
    read_dc_trace_seq_sum table i n (BitStream.init data) ps bs' hilen hseq
  -- the block part
  unfold read_block at hblk
  cases hdc : read_dc dcT i bsb with
  | error e => rw [hdc] at hblk; cases hblk
  | ok p =>
    obtain ⟨dcv, bsr⟩ := p
    rw [hdc] at hblk
    obtain ⟨-, hldr⟩ := read_dc_spec hdc
    have hb0 : blockGet b 0 = dcv := by
      rw [ac_loop_get0 acT 63 1 _ bsr b bsb' (by omega) hblk]
      rfl
    have hldb : bsb'.lastDc = bsr.lastDc := ac_loop_lastDc acT 63 1 _ bsr b bsb' hblk
    refine ⟨hzero, ?_, ?_, fun bsx px bsx' hx => read_ac_lastDc hx, ?_, ?_⟩
    · intro k hkn
      rw [hk k hkn, hzero, zero_add]
    · rw [hfin, hzero, zero_add]
    · rw [hb0, hldb, hldr, getD_set_self _ _ _ _ hib]
    · intro j hj
      rw [hldb, hldr, getD_set_ne _ _ _ _ _ (fun he => hj he.symm)]

/-- C5 witness: with DC table `{(1,0) ↦ 1, (2,2) ↦ 2}` over the byte
`0x64`, two blocks decode differences `1` and `-2`, DC values `1` and
`-1` (the prefix sums), and a block decoded with an immediate-EOB AC
table carries the predictor value at position 0. -/
theorem c5_dc_predictor_witness :
    ((BitStream.init [0x64]).lastDc.getD 0 0 = 0) ∧
    (∀ k, k < 2 →
      ([((1 : Int), (1 : Int)), ((-1 : Int), (-2 : Int))].getD k (0, 0)).1 =
        (([((1 : Int), (1 : Int)), ((-1 : Int), (-2 : Int))].map
            Prod.snd).take (k + 1)).sum) ∧
    (BitStream.mk [] 100 2 [-1, 0, 0] 0).lastDc.getD 0 0 =
      ([((1 : Int), (1 : Int)), ((-1 : Int), (-2 : Int))].map Prod.snd).sum ∧
    (∀ (bsx : BitStream) (px : Int × Int) (bsx' : BitStream),
      read_ac [((1, 0), 0x00)] bsx = .ok (px, bsx') →
      bsx'.lastDc = bsx.lastDc) ∧
    blockGet initBlock 0 =
      (BitStream.mk [] 0 6 [0, 0, 0] 0).lastDc.getD 0 0 ∧
    (∀ j, j ≠ 0 →
      (BitStream.mk [] 0 6 [0, 0, 0] 0).lastDc.getD j 0 =
        (BitStream.init [0x00]).lastDc.getD j 0) :=
  c5_dc_predictor [((1, 0), 1), ((2, 2), 2)] [((1, 0), 0)] [((1, 0), 0x00)]
    0 2 [0x64] [((1 : Int), (1 : Int)), ((-1 : Int), (-2 : Int))]
    (BitStream.mk [] 100 2 [-1, 0, 0] 0) (BitStream.init [0x00]) initBlock
    (BitStream.mk [] 0 6 [0, 0, 0] 0) rfl (by decide) rfl (by decide)

/-! ## C10: MCU structure -/

theorem blockGet_initBlock (j : Nat) : blockGet initBlock j = 0 := by
  have h1 : j % 8 < 8 := Nat.mod_lt _ (by omega)
  unfold blockGet initBlock
  rcases Nat.lt_or_ge (j / 8) 8 with h | h
  · have hrow : (List.replicate 8 (List.replicate 8 (0 : Int))).getD (j / 8) [] =
        List.replicate 8 0 := by
      rw [List.getD_eq_getElem?_getD, List.getElem?_replicate, if_pos h]
      rfl
    rw [hrow, List.getD_eq_getElem?_getD, List.getElem?_replicate, if_pos h1]
    rfl
  · have hrow : (List.replicate 8 (List.replicate 8 (0 : Int))).getD (j / 8) [] =
        ([] : List Int) := by
      rw [List.getD_eq_getElem?_getD, List.getElem?_replicate, if_neg (by omega)]
      rfl
    rw [hrow]
    rfl

theorem blockSet_shape (b : Block) (idx : Nat) (v : Int)
    (hlen : b.length = 8) (hrow : ∀ r ∈ b, r.length = 8) :
    (blockSet b idx v).length = 8 ∧ ∀ r ∈ blockSet b idx v, r.length = 8 := by
  unfold blockSet
  refine ⟨by rw [List.length_set, hlen], fun r hr => ?_⟩
  by_cases hi : idx / 8 < b.length
  · rcases List.mem_or_eq_of_mem_set hr with hmem | heq
    · exact hrow r hmem
    · subst heq
      rw [List.length_set, List.getD_eq_getElem b [] hi]
      exact hrow _ (List.getElem_mem hi)
  · rw [List.set_eq_of_length_le (by omega : b.length ≤ idx / 8)] at hr
    exact hrow r hr

theorem applyWrites_shape (ws : List (Nat × Int)) :
    ∀ (b : Block), b.length = 8 → (∀ r ∈ b, r.length = 8) →
    (applyWrites b ws).length = 8 ∧ ∀ r ∈ applyWrites b ws, r.length = 8 := by
  induction ws with
  | nil => intro b h1 h2; exact ⟨h1, h2⟩
  | cons w ws ih =>
    intro b h1 h2
    obtain ⟨h1', h2'⟩ := blockSet_shape b w.1 w.2 h1 h2
    exact ih (blockSet b w.1 w.2) h1' h2'

theorem applyWrites_get_ne (ws : List (Nat × Int)) :
    ∀ (b : Block) (j : Nat), (∀ w ∈ ws, w.1 ≠ j) →
    blockGet (applyWrites b ws) j = blockGet b j := by
  induction ws with
  | nil => intro b j _; rfl
  | cons w ws ih =>
    intro b j hj
    show blockGet (applyWrites (blockSet b w.1 w.2) ws) j = blockGet b j
    rw [ih (blockSet b w.1 w.2) j (fun x hx => hj x (by simp [hx])),
      blockGet_set_ne b w.1 w.2 j (fun he => hj w (by simp) (he ▸ rfl))]

/-- Every run of the AC loop is a sequence of stores at linear
positions in `[idx, 64)` on top of the incoming block. -/
theorem ac_loop_writes (table : HTable) :
    ∀ (fuel idx : Nat) (b : Block) (bs : BitStream) (b' : Block)
    (bs' : BitStream), ac_loop table fuel idx b bs = .ok (b', bs') →
    ∃ ws : List (Nat × Int), b' = applyWrites b ws ∧
      ∀ w ∈ ws, idx ≤ w.1 ∧ w.1 < 64 := by
  intro fuel
  induction fuel with
  | zero =>
    intro idx b bs b' bs' h
    simp only [ac_loop, Except.ok.injEq, Prod.mk.injEq] at h
    exact ⟨[], by rw [← h.1]; rfl, by simp⟩
  | succ fuel ih =>
    intro idx b bs b' bs' h
    rw [ac_loop] at h
    split at h
    · simp only [Except.ok.injEq, Prod.mk.injEq] at h
      exact ⟨[], by rw [← h.1]; rfl, by simp⟩
    · cases hra : read_ac table bs with
      | error e => simp [hra] at h
      | ok q =>
        obtain ⟨⟨zeros, val⟩, bs1⟩ := q
        simp only [hra] at h
        split at h
        · simp only [Except.ok.injEq, Prod.mk.injEq] at h
          exact ⟨[], by rw [← h.1]; rfl, by simp⟩
        · split at h
          · simp only [Except.ok.injEq, Prod.mk.injEq] at h
            exact ⟨[], by rw [← h.1]; rfl, by simp⟩
          · rename_i hidx hne hlt
            obtain ⟨ws, hws, hbnd⟩ :=
              ih (idx + zeros.toNat + 1) (blockSet b (idx + zeros.toNat) val) bs1 b' bs' h
            refine ⟨(idx + zeros.toNat, val) :: ws, hws, ?_⟩
            intro w hw
            rcases List.mem_cons.mp hw with hw0 | hwm
            · subst hw0
              exact ⟨by omega, by omega⟩
            · have := hbnd w hwm
              exact ⟨by omega, this.2⟩

/-- What `read_block` yields: a fully-initialised 8×8 block that is the
all-zero block with the DC value stored at position 0 and a sequence of
AC stores at positions `1..63`; every position never stored remains 0. -/
theorem read_block_spec {dcT acT : HTable} {i : Nat} {bs : BitStream}
    {b : Block} {bs' : BitStream}
    (h : read_block dcT acT i bs = .ok (b, bs')) :
    b.length = 8 ∧ (∀ r ∈ b, r.length = 8) ∧
    ∃ dcv ws, b = applyWrites (blockSet initBlock 0 dcv) ws ∧
      (∀ w ∈ ws, 1 ≤ w.1 ∧ w.1 < 64) ∧
      (∀ j, 1 ≤ j → (∀ w ∈ ws, w.1 ≠ j) → blockGet b j = 0) := by
  unfold read_block at h
  cases hdc : read_dc dcT i bs with
  | error e => rw [hdc] at h; cases h
  | ok p =>
    obtain ⟨dcv, bsr⟩ := p
    rw [hdc] at h
    obtain ⟨ws, hws, hbnd⟩ := ac_loop_writes acT 63 1 _ bsr b bs' h
    have hshape0 : (blockSet initBlock 0 dcv).length = 8 ∧
        ∀ r ∈ blockSet initBlock 0 dcv, r.length = 8 :=
      blockSet_shape initBlock 0 dcv (by rfl) (by
        intro r hr
        rw [List.eq_of_mem_replicate hr]
        rfl)
    obtain ⟨hs1, hs2⟩ := applyWrites_shape ws _ hshape0.1 hshape0.2
    rw [← hws] at hs1 hs2
    refine ⟨hs1, hs2, dcv, ws, hws, fun w hw => hbnd w hw, ?_⟩
    intro j hj hnw
    rw [hws, applyWrites_get_ne ws _ j hnw,
      blockGet_set_ne initBlock 0 dcv j (by omega), blockGet_initBlock]

theorem read_blocks_row_spec (dcT acT : HTable) (i : Nat) :
    ∀ (hs : Nat) (bs : BitStream) (row : List Block) (bs' : BitStream),
    read_blocks_row dcT acT i hs bs = .ok (row, bs') →
    row.length = hs ∧
    ∀ blk ∈ row, ∃ bs1 bs2, read_block dcT acT i bs1 = .ok (blk, bs2) := by
  intro hs
  induction hs with
  | zero =>
    intro bs row bs' h
    simp only [read_blocks_row, Except.ok.injEq, Prod.mk.injEq] at h
    rw [← h.1]
    exact ⟨rfl, by simp⟩
  | succ hs ih =>
    intro bs row bs' h
    cases hb : read_block dcT acT i bs with
    | error e => simp [read_blocks_row, hb] at h
    | ok p =>
      obtain ⟨blk, bs1⟩ := p
      simp only [read_blocks_row, hb] at h
      cases hr : read_blocks_row dcT acT i hs bs1 with
      | error e => simp [hr] at h
      | ok q =>
        obtain ⟨row', bs2⟩ := q
        simp only [hr, Except.ok.injEq, Prod.mk.injEq] at h
        obtain ⟨hrow, -⟩ := h
        obtain ⟨hlen, hall⟩ := ih bs1 row' bs2 hr
        rw [← hrow]
        refine ⟨by simp [hlen], fun x hx => ?_⟩
        rcases List.mem_cons.mp hx with hx0 | hxm
        · exact ⟨bs, bs1, hx0 ▸ hb⟩
        · exact hall x hxm

theorem read_component_blocks_spec (dcT acT : HTable) (i hSamp : Nat) :
    ∀ (v : Nat) (bs : BitStream) (rows : List (List Block)) (bs' : BitStream),
    read_component_blocks dcT acT i hSamp v bs = .ok (rows, bs') →
    rows.length = v ∧
    ∀ row ∈ rows, row.length = hSamp ∧
      ∀ blk ∈ row, ∃ bs1 bs2, read_block dcT acT i bs1 = .ok (blk, bs2) := by
  intro v
  induction v with
  | zero =>
    intro bs rows bs' h
    simp only [read_component_blocks, Except.ok.injEq, Prod.mk.injEq] at h
    rw [← h.1]
    exact ⟨rfl, by simp⟩
  | succ v ih =>
    intro bs rows bs' h
    cases hrw : read_blocks_row dcT acT i hSamp bs with
    | error e => simp [read_component_blocks, hrw] at h
    | ok p =>
      obtain ⟨row, bs1⟩ := p
      simp only [read_component_blocks, hrw] at h
      cases hrs : read_component_blocks dcT acT i hSamp v bs1 with
      | error e => simp [hrs] at h
      | ok q =>
        obtain ⟨rows', bs2⟩ := q
        simp only [hrs, Except.ok.injEq, Prod.mk.injEq] at h
        obtain ⟨hrows, -⟩ := h
        obtain ⟨hlen, hall⟩ := ih bs1 rows' bs2 hrs
        obtain ⟨hrl, hrb⟩ := read_blocks_row_spec dcT acT i hSamp bs row bs1 hrw
        rw [← hrows]
        refine ⟨by simp [hlen], fun x hx => ?_⟩
        rcases List.mem_cons.mp hx with hx0 | hxm
        · exact hx0 ▸ ⟨hrl, hrb⟩
        · exact hall x hxm

theorem read_components_spec (meta : JPEGMetadata) :
    ∀ (n i : Nat) (bs : BitStream) (mcu : MCU) (bs' : BitStream),
    read_components meta n i bs = .ok (mcu, bs') →
    mcu.length = n ∧
    ∀ k, k < n →
      (mcu.getD k []).length =
        (meta.sofInfo.components.getD (i + k) defaultComponent).verticalSampling ∧
      ∀ row ∈ mcu.getD k [],
        row.length =
          (meta.sofInfo.components.getD (i + k) defaultComponent).horizontalSampling ∧
        ∀ blk ∈ row, ∃ dcT acT bs1 bs2,
          read_block dcT acT (i + k) bs1 = .ok (blk, bs2) := by
  intro n
  induction n with
  | zero =>
    intro i bs mcu bs' h
    simp only [read_components, Except.ok.injEq, Prod.mk.injEq] at h
    rw [← h.1]
    exact ⟨rfl, by simp⟩
  | succ n ih =>
    intro i bs mcu bs' h
    simp only [read_components] at h
    cases hcb : read_component_blocks
        (meta.huffmanTables.dcTables.getD (meta.tableMapping.getD i (0, 0)).1 [])
        (meta.huffmanTables.acTables.getD (meta.tableMapping.getD i (0, 0)).2 [])
        i (meta.sofInfo.components.getD i defaultComponent).horizontalSampling
        (meta.sofInfo.components.getD i defaultComponent).verticalSampling bs with
    | error e =>
      simp only [hcb] at h
      simp at h
    | ok p =>
      obtain ⟨compData, bs1⟩ := p
      simp only [hcb] at h
      cases hrc : read_components meta n (i + 1) bs1 with
      | error e =>
        simp only [hrc] at h
        simp at h
      | ok q =>
        obtain ⟨rest, bs2⟩ := q
        simp only [hrc] at h
        simp only [Except.ok.injEq, Prod.mk.injEq] at h
        obtain ⟨hmcu, -⟩ := h
        obtain ⟨hlen, hall⟩ := ih (i + 1) bs1 rest bs2 hrc
        obtain ⟨hcl, hcall⟩ := read_component_blocks_spec _ _ i _ _ bs compData bs1 hcb
        rw [← hmcu]
        refine ⟨by simp [hlen], fun k hk => ?_⟩
        match k with
        | 0 =>
          refine ⟨by simpa using hcl, fun row hrow => ?_⟩
          obtain ⟨hrl, hrb⟩ := hcall row (by simpa using hrow)
          refine ⟨hrl, fun blk hblk => ?_⟩
          obtain ⟨bsx, bsy, hx⟩ := hrb blk hblk
          exact ⟨_, _, bsx, bsy, hx⟩
        | k + 1 =>
          have hk' : k < n := by omega
          obtain ⟨h1, h2⟩ := hall k hk'
          have hidx : i + 1 + k = i + (k + 1) := by omega
          rw [hidx] at h1 h2
          exact ⟨by simpa using h1, fun row hrow => h2 row (by simpa using hrow)⟩

/-- C10: every MCU produced by `read_mcu` has exactly three component
entries regardless of how many components SOF0 declared; component `i`
holds `vertical_sampling × horizontal_sampling` fully-initialised 8×8
blocks, each the all-zero block with the DC value stored at position 0
and AC stores at positions `1..63` — positions never written remain 0;
a component with zero sampling factors (as an undeclared component
keeps the `ComponentInfo` defaults) gets an empty block array, and the
sample lookup of pixel assembly (`toRGB`) on such a component indexes
out of bounds (`none`). -/
theorem c10_mcu_structure (meta : JPEGMetadata) (bs : BitStream)
    (mcu : MCU) (bs' : BitStream)
    (h : read_mcu meta bs = .ok (mcu, bs')) :
    mcu.length = 3 ∧
    (∀ i, i < 3 →
      (mcu.getD i []).length =
        (meta.sofInfo.components.getD i defaultComponent).verticalSampling ∧
      ∀ row ∈ mcu.getD i [],
        row.length =
          (meta.sofInfo.components.getD i defaultComponent).horizontalSampling ∧
        ∀ blk ∈ row, blk.length = 8 ∧ (∀ r ∈ blk, r.length = 8) ∧
          ∃ dcv ws, blk = applyWrites (blockSet initBlock 0 dcv) ws ∧
            (∀ w ∈ ws, 1 ≤ w.1 ∧ w.1 < 64) ∧
            ∀ j, 1 ≤ j → (∀ w ∈ ws, w.1 ≠ j) → blockGet blk j = 0) ∧
    (∀ i, i < 3 →
      (meta.sofInfo.components.getD i defaultComponent).verticalSampling = 0 →
      mcu.getD i [] = [] ∧ ∀ vh vw, mcuSample mcu i vh vw = none) := by
  obtain ⟨hlen, hspec⟩ := read_components_spec meta 3 0 bs mcu bs' h
  refine ⟨hlen, ?_, ?_⟩
  · intro i hi
    obtain ⟨h1, h2⟩ := hspec i hi
    rw [Nat.zero_add] at h1 h2
    refine ⟨h1, fun row hrow => ?_⟩
    obtain ⟨hrl, hrb⟩ := h2 row hrow
    refine ⟨hrl, fun blk hblk => ?_⟩
    obtain ⟨dcT, acT, bs1, bs2, hx⟩ := hrb blk hblk
    obtain ⟨hs1, hs2, dcv, ws, hwseq, hb, hz⟩ := read_block_spec hx
    exact ⟨hs1, hs2, dcv, ws, hwseq, hb, hz⟩
  · intro i hi hv0
    obtain ⟨h1, -⟩ := hspec i hi
    rw [Nat.zero_add] at h1
    have hempty : mcu.getD i [] = [] := by
      rw [← List.length_eq_zero, h1, hv0]
    have hilen : i < mcu.length := by omega
    have hgi : mcu[i] = ([] : List (List Block)) := by
      rw [← List.getD_eq_getElem mcu [] hilen]
      exact hempty
    refine ⟨hempty, fun vh vw => ?_⟩
    unfold mcuSample
    rw [List.get?_eq_getElem?, List.getElem?_eq_getElem hilen, hgi]
    rfl

/-- Metadata of a frame declaring a single 1×1-sampled component; the
other two components keep the `ComponentInfo()` defaults (sampling 0). -/
def c10Meta : JPEGMetadata :=
  { sofInfo := { components := [⟨1, 1, 0⟩, {}, {}] },
    huffmanTables := { dcTables := [[((1, 0), 0)], []],
                       acTables := [[((1, 0), 0)], []] } }

/-- C10 witness: decoding one MCU of the single-component frame yields
three components — one block for the declared component, empty arrays
for the two undeclared ones — and the assembly lookup on the empty
components is out of bounds. -/
theorem c10_mcu_structure_witness :
    ([[[initBlock]], [], []] : MCU).length = 3 ∧
    (∀ i, i < 3 →
      (([[[initBlock]], [], []] : MCU).getD i []).length =
        (c10Meta.sofInfo.components.getD i defaultComponent).verticalSampling ∧
      ∀ row ∈ ([[[initBlock]], [], []] : MCU).getD i [],
        row.length =
          (c10Meta.sofInfo.components.getD i defaultComponent).horizontalSampling ∧
        ∀ blk ∈ row, blk.length = 8 ∧ (∀ r ∈ blk, r.length = 8) ∧
          ∃ dcv ws, blk = applyWrites (blockSet initBlock 0 dcv) ws ∧
            (∀ w ∈ ws, 1 ≤ w.1 ∧ w.1 < 64) ∧
            ∀ j, 1 ≤ j → (∀ w ∈ ws, w.1 ≠ j) → blockGet blk j = 0) ∧
    (∀ i, i < 3 →
      (c10Meta.sofInfo.components.getD i defaultComponent).verticalSampling = 0 →
      ([[[initBlock]], [], []] : MCU).getD i [] = [] ∧
      ∀ vh vw, mcuSample ([[[initBlock]], [], []] : MCU) i vh vw = none) :=
  c10_mcu_structure c10Meta (BitStream.init [0x00]) [[[initBlock]], [], []]
    (BitStream.mk [] 0 6 [0, 0, 0] 0) rfl

/-! ## C9: the all-DC constant plane -/

theorem round_mono_le {a b : ℝ} (h : a ≤ b) : round a ≤ round b := by
  rw [round_eq, round_eq]
  exact Int.floor_mono (by linarith)

/-- `chomp` (round, then clamp) agrees with the spec's
round-after-clamp on every input. -/
theorem chomp_eq_specRoundClamp (v : ℝ) : chomp v = specRoundClamp v := by
  have h255r : round (255 : ℝ) = 255 := by
    rw [show (255 : ℝ) = ((255 : ℤ) : ℝ) by norm_num, round_intCast]
  unfold chomp specRoundClamp
  rcases le_total v 0 with h0 | h0
  · have hr : round v ≤ 0 := by
      have := round_mono_le h0
      simpa using this
    rw [min_eq_right (by linarith : v ≤ (255 : ℝ)),
      max_eq_left h0, min_eq_right (by omega : round v ≤ (255 : ℤ)),
      max_eq_left hr]
    simp
  · rcases le_total v 255 with h255 | h255
    · have hr0 : (0 : ℤ) ≤ round v := by
        have := round_mono_le h0
        simpa using this
      have hr255 : round v ≤ 255 := by
        have := round_mono_le h255
        rw [h255r] at this
        exact this
      rw [min_eq_right h255, max_eq_right h0, min_eq_right hr255,
        max_eq_right hr0]
    · have hr : (255 : ℤ) ≤ round v := by
        have := round_mono_le h255
        rw [h255r] at this
        exact this
      rw [min_eq_left h255, max_eq_right (by norm_num : (0 : ℝ) ≤ 255),
        min_eq_left hr, max_eq_right (by omega : (0 : ℤ) ≤ 255), h255r]

/-- One 1-D IDCT pass over a DC-only vector is constant. -/
theorem idct_1d_dc (d : ℝ) (G : Fin 8 → ℝ)
    (hG : ∀ u, G u = if u.val = 0 then d else 0) (x : Fin 8) :
    idct_1d G x = Real.sqrt (2 / 8) * ((1 / Real.sqrt 2) * d) := by
  unfold idct_1d
  rw [Finset.sum_eq_single_of_mem (0 : Fin 8) (Finset.mem_univ _)
    (fun b _ hb => ?_)]
  · have h0 : ((0 : Fin 8) : Nat) = 0 := rfl
    rw [if_pos h0, hG 0, if_pos h0]
    push_cast [h0]
    rw [show (2 * (x : ℝ) + 1) * 0 * Real.pi / (2 * 8) = 0 by ring,
      Real.cos_zero]
    ring
  · have hb0 : (b : Nat) ≠ 0 := fun hv => hb (Fin.ext hv)
    rw [if_neg hb0, hG b, if_neg hb0, zero_mul]

/-- One 1-D IDCT pass over the zero vector vanishes. -/
theorem idct_1d_zero (G : Fin 8 → ℝ) (hG : ∀ u, G u = 0) (x : Fin 8) :
    idct_1d G x = 0 := by
  unfold idct_1d
  rw [Finset.sum_eq_zero fun u _ => ?_, mul_zero]
  by_cases hu : (u : Nat) = 0
  · rw [if_pos hu, hG u]
    ring
  · rw [if_neg hu, hG u, zero_mul]

/-- The 2-D row-column IDCT of a DC-only matrix is the constant `d/8`. -/
theorem idct_2d_dc (d : ℝ) (F : Fin 8 → Fin 8 → ℝ)
    (hF : ∀ r c, F r c = if r.val = 0 ∧ c.val = 0 then d else 0)
    (x y : Fin 8) : idct_2d F x y = d / 8 := by
  unfold idct_2d
  have hinner : ∀ k : Fin 8,
      idct_1d (F k) y =
        if (k : Nat) = 0 then Real.sqrt (2 / 8) * ((1 / Real.sqrt 2) * d)
        else 0 := by
    intro k
    by_cases hk : (k : Nat) = 0
    · rw [if_pos hk]
      refine idct_1d_dc d (F k) (fun u => ?_) y
      rw [hF k u]
      by_cases hu : (u : Nat) = 0
      · rw [if_pos ⟨hk, hu⟩, if_pos hu]
      · rw [if_neg (fun hh => hu hh.2), if_neg hu]
    · rw [if_neg hk]
      refine idct_1d_zero (F k) (fun u => ?_) y
      rw [hF k u, if_neg (fun hh => hk hh.1)]
  rw [idct_1d_dc (Real.sqrt (2 / 8) * ((1 / Real.sqrt 2) * d)) _ hinner x]
  have h1 : Real.sqrt (2 / 8) * Real.sqrt (2 / 8) = 2 / 8 :=
    Real.mul_self_sqrt (by norm_num)
  have h2 : Real.sqrt 2 * Real.sqrt 2 = 2 := Real.mul_self_sqrt (by norm_num)
  calc Real.sqrt (2 / 8) *
        ((1 / Real.sqrt 2) * (Real.sqrt (2 / 8) * ((1 / Real.sqrt 2) * d)))
      = (Real.sqrt (2 / 8) * Real.sqrt (2 / 8)) * d /
          (Real.sqrt 2 * Real.sqrt 2) := by ring
    _ = (2 / 8) * d / 2 := by rw [h1, h2]
    _ = d / 8 := by ring

/-- C9: the all-DC block.  Pushing the zig-zag-ordered block whose only
non-zero coefficient is the DC value `d` through the block pipeline
(dequantize by `Q`, inverse zig-zag, 2-D IDCT) yields the constant
plane `d·Q[0]/8` on all 64 samples, and the level-shifted, clamped,
rounded output sample is `round(clamp(d·Q[0]/8 + 128))`. -/
theorem c9_all_dc_constant_plane (d : ℝ) (qt : List ℝ) (x y : Fin 8) :
    block_pipeline qt (dcOnlyBlock d) x y = d * qt.getD 0 0 / 8 ∧
    chomp (block_pipeline qt (dcOnlyBlock d) x y + 128) =
      specRoundClamp (d * qt.getD 0 0 / 8 + 128) := by
  have hq : ∀ r c : Fin 8,
      dequantize qt (dcOnlyBlock d) r c =
        if r.val = 0 ∧ c.val = 0 then d * qt.getD 0 0 else 0 := by
    intro r c
    unfold dequantize dcOnlyBlock
    by_cases h : r.val = 0 ∧ c.val = 0
    · rw [if_pos h, if_pos h, h.1, h.2]
    · rw [if_neg h, if_neg h, zero_mul]
  have hiff : ∀ r c : Fin 8,
      (zzAt r.val c.val / 8 = 0 ∧ zzAt r.val c.val % 8 = 0) ↔
        (r.val = 0 ∧ c.val = 0) := by decide
  have hz : ∀ r c : Fin 8,
      inverse_zigzag_scan (dequantize qt (dcOnlyBlock d)) r c =
        if r.val = 0 ∧ c.val = 0 then d * qt.getD 0 0 else 0 := by
    intro r c
    unfold inverse_zigzag_scan
    rw [hq]
    by_cases h : r.val = 0 ∧ c.val = 0
    · rw [if_pos ((hiff r c).mpr h), if_pos h]
    · rw [if_neg (fun hh => h ((hiff r c).mp hh)), if_neg h]
  have hmain : block_pipeline qt (dcOnlyBlock d) x y = d * qt.getD 0 0 / 8 :=
    idct_2d_dc (d * qt.getD 0 0) _ hz x y
  exact ⟨hmain, by rw [hmain, chomp_eq_specRoundClamp]⟩

end JpegDecoder
